import Mathlib

/-!
Verification of the document-retrieval engine of AI_Travel_Planner_Pro
(backend/app/modules/qa/rag): tokenizer, chunker, BM25 vector store,
document matcher, index signature / index cache, and the knowledge-base
orchestrator.  Each definition is a shallow embedding of the corresponding
Python function; machine floats are modelled by exact rationals, `math.log`
is kept abstract as a function parameter `ilog : ℚ → ℚ` (theorems assume of
it only what the claims need, e.g. positivity on `(1, ∞)`, which the real
logarithm satisfies), Python exceptions are modelled by `Except Unit`, and
the possibly non-terminating chunking loop is modelled with explicit fuel
(`none` = the loop has not finished within the given fuel).
-/

namespace RAG

/-! ### Tokenizer (vector_store.tokenize)

`_TOKEN_PATTERN = re.compile(r"[一-鿿]|[a-zA-Z0-9]+")`;
`tokenize` returns the lower-cased `findall` matches: each CJK ideograph is
one token, maximal runs of ASCII letters/digits are one token, everything
else is dropped. -/

def isCJK (c : Char) : Bool :=
  0x4e00 ≤ c.toNat && c.toNat ≤ 0x9fff

def isAsciiAlnum (c : Char) : Bool :=
  ('a' ≤ c && c ≤ 'z') || ('A' ≤ c && c ≤ 'Z') || ('0' ≤ c && c ≤ '9')

/-- One left-to-right scan of the regex alternation: `run` is the pending
(reversed) run of ASCII alphanumerics not yet emitted. -/
def tokenizeAux (run : List Char) : List Char → List (List Char)
  | [] => if run.isEmpty then [] else [run.reverse]
  | c :: rest =>
    if isAsciiAlnum c then
      tokenizeAux (c :: run) rest
    else
      (if run.isEmpty then [] else [run.reverse]) ++
        (if isCJK c then [[c]] else []) ++ tokenizeAux [] rest

def tokenize (s : String) : List String :=
  (tokenizeAux [] s.data).map (fun t => String.mk (t.map Char.toLower))

/-! ### Chunk (vector_store.Chunk) -/

structure Chunk where
  chunk_id : String
  content : String
  source : String
  page : Nat
deriving DecidableEq, Repr

instance : Inhabited Chunk := ⟨⟨"", "", "", 0⟩⟩

/-! ### Chunker (KnowledgeBase._chunk_text)

The `while start < length` loop of `_chunk_text`, with explicit fuel: the
value `none` means the loop was still running when the fuel ran out.  Python
string slicing `text[start:end]` is `(text.drop start).take (end - start)`
over the list of code points, `.strip()` is `pyStrip`, and the final
`if start < 0: start = 0` clamp coincides with truncated `Nat` subtraction
in `end - chunk_overlap`. -/

def pyStrip (l : List Char) : List Char :=
  ((l.dropWhile Char.isWhitespace).reverse.dropWhile Char.isWhitespace).reverse

def chunkLoop (cs co : Nat) (text : List Char) (source : String) :
    Nat → Nat → Nat → Option (List Chunk)
  | fuel, start, index =>
    if start < text.length then
      match fuel with
      | 0 => none
      | fuel' + 1 =>
        let e := min (start + cs) text.length
        let content := pyStrip ((text.drop start).take (e - start))
        if content.isEmpty then
          chunkLoop cs co text source fuel' (e - co) index
        else
          (chunkLoop cs co text source fuel' (e - co) (index + 1)).map
            (fun rest =>
              ⟨source ++ "-" ++ toString index, String.mk content, source, index⟩ :: rest)
    else some []

def chunkText (cs co : Nat) (text : List Char) (source : String) (fuel : Nat) :
    Option (List Chunk) :=
  if text.isEmpty then some [] else chunkLoop cs co text source fuel 0 0

/-! ### Association-list model of the Python dicts used by the store

`_doc_freq` and the per-chunk `freq` dicts hold `int` counts; `d.get(k, 0)`,
`k in d` and `d[k] = d.get(k, 0) + 1` are the only operations used. -/

def alGet : List (String × Nat) → String → Nat
  | [], _ => 0
  | (k', v) :: rest, k => if k' == k then v else alGet rest k

def alMem : List (String × Nat) → String → Bool
  | [], _ => false
  | (k', _) :: rest, k => k' == k || alMem rest k

/-- `d[k] = d.get(k, 0) + 1`: bump the entry in place, or append a new one. -/
def alInc : List (String × Nat) → String → List (String × Nat)
  | [], k => [(k, 1)]
  | (k', v) :: rest, k =>
    if k' == k then (k', v + 1) :: rest else (k', v) :: alInc rest k

/-- Per-document term-frequency dict: `for token in tokens: freq[token] += 1`. -/
def termFreq (tokens : List String) : List (String × Nat) :=
  tokens.foldl alInc []

/-! ### BM25 vector store (vector_store.BM25VectorStore)

Fields of the Python object after `__init__` ran `_build_index`.  Floats are
modelled by `ℚ` (`k1 = 1.5`, `b = 0.75`, `_avg_doc_len = total_len /
max(len(chunks), 1)` are all exact rationals). -/

structure BM25VectorStore where
  chunks : List Chunk
  k1 : ℚ
  b : ℚ
  docTokens : List (List String)
  docFreq : List (String × Nat)
  avgDocLen : ℚ
deriving DecidableEq

/-- Accumulator of the `for chunk in self.chunks` loop of `_build_index`. -/
structure BuildAcc where
  docTokens : List (List String)
  totalLen : Nat
  docFreq : List (String × Nat)
deriving DecidableEq

/-- One iteration of `_build_index`: tokenize the chunk, append its token
list, add its length to the running total, and bump `_doc_freq` once per
distinct token (`seen = set(tokens)`). -/
def buildStep (acc : BuildAcc) (chunk : Chunk) : BuildAcc :=
  let tokens := tokenize chunk.content
  { docTokens := acc.docTokens ++ [tokens]
    totalLen := acc.totalLen + tokens.length
    docFreq := tokens.dedup.foldl alInc acc.docFreq }

/-- `BM25VectorStore(chunks, k1, b)`: the constructor runs `_build_index`. -/
def mkStore (chunks : List Chunk) (k1 b : ℚ) : BM25VectorStore :=
  let acc := chunks.foldl buildStep ⟨[], 0, []⟩
  { chunks := chunks
    k1 := k1
    b := b
    docTokens := acc.docTokens
    docFreq := acc.docFreq
    avgDocLen := (acc.totalLen : ℚ) / (max chunks.length 1 : ℚ) }

/-- `_idf`: `log((n_docs - df + 0.5) / (df + 0.5) + 1)` with
`n_docs = max(len(chunks), 1)`; `math.log` is the abstract `ilog`. -/
def idf (ilog : ℚ → ℚ) (st : BM25VectorStore) (term : String) : ℚ :=
  let nDocs : ℚ := (max st.chunks.length 1 : ℚ)
  let df : ℚ := (alGet st.docFreq term : ℚ)
  ilog ((nDocs - df + 1/2) / (df + 1/2) + 1)

/-- The score the `for term in q_tokens` loop of `search` accumulates for one
document: repeated query terms contribute repeatedly, terms absent from the
document's `freq` dict contribute nothing, and both Python `x or 1` guards
(`self._avg_doc_len or 1`, `denom or 1`) are the zero tests. -/
def docScore (ilog : ℚ → ℚ) (st : BM25VectorStore) (qTokens : List String)
    (tokens : List String) : ℚ :=
  let freq := termFreq tokens
  let docLen : ℚ := (tokens.length : ℚ)
  let avgOr1 : ℚ := if st.avgDocLen = 0 then 1 else st.avgDocLen
  qTokens.foldl
    (fun acc term =>
      if alMem freq term then
        let idfv := idf ilog st term
        let tf : ℚ := (alGet freq term : ℚ)
        let denom := tf + st.k1 * (1 - st.b + st.b * docLen / avgOr1)
        let denomOr1 := if denom = 0 then 1 else denom
        acc + idfv * (tf * (st.k1 + 1)) / denomOr1
      else acc)
    0

/-- The `scores` list of `search` before sorting: `(idx, score)` for every
document with a non-empty token list and a strictly positive score, in
document order. -/
def searchScores (ilog : ℚ → ℚ) (st : BM25VectorStore) (query : String) :
    List (Nat × ℚ) :=
  let qTokens := tokenize query
  st.docTokens.enum.filterMap
    (fun p =>
      if p.2.isEmpty then none
      else
        let score := docScore ilog st qTokens p.2
        if 0 < score then some (p.1, score) else none)

/-- `scores.sort(key=lambda item: item[1], reverse=True)`: Python's stable
sort in descending score order (`reverse=True` keeps ties in list order). -/
def sortByScoreDesc {α β : Type} [LinearOrder β] (l : List (α × β)) : List (α × β) :=
  l.mergeSort (fun a b => decide (b.2 ≤ a.2))

/-- Python slice `l[:k]` for an arbitrary integer `k`: a non-negative bound
takes the first `k` elements, a negative bound drops the last `-k`. -/
def pySliceTo {α : Type} (k : Int) (l : List α) : List α :=
  if 0 ≤ k then l.take k.toNat else l.take (l.length - (-k).toNat)

/-- `BM25VectorStore.search(query, top_k)`. -/
def search (ilog : ℚ → ℚ) (st : BM25VectorStore) (query : String) (topK : Int) :
    List (Chunk × ℚ) :=
  (pySliceTo topK (sortByScoreDesc (searchScores ilog st query))).map
    (fun p => (st.chunks.getD p.1 default, p.2))

/-- `Retriever.retrieve(query, top_k)`: drop the scores. -/
def retrieverRetrieve (ilog : ℚ → ℚ) (st : BM25VectorStore) (query : String)
    (topK : Int) : List Chunk :=
  (search ilog st query topK).map Prod.fst

/-! ### Positivity of BM25 contributions (C9) -/

/-- The summand the `for term in q_tokens` loop adds for a query term that
occurs in the document. -/
def termContribution (ilog : ℚ → ℚ) (st : BM25VectorStore) (tokens : List String)
    (term : String) : ℚ :=
  let docLen : ℚ := (tokens.length : ℚ)
  let avgOr1 : ℚ := if st.avgDocLen = 0 then 1 else st.avgDocLen
  let tf : ℚ := (alGet (termFreq tokens) term : ℚ)
  let denom := tf + st.k1 * (1 - st.b + st.b * docLen / avgOr1)
  idf ilog st term * (tf * (st.k1 + 1)) / (if denom = 0 then 1 else denom)

/-! ### Source documents (dataset PDFs)

A PDF of the dataset directory as the engine observes it: the display name
(`Path.stem`; the listing is `glob("*.pdf")`, so the file name is
`stem ++ ".pdf"`), the `{size, mtime}` stat snapshot, the text cache entry
for the document (`some text` = a cache hit for the current stat), and the
reader's page outcomes: the outer `Except` is `PdfReader` construction
(raises on an unreadable document), each page's `Except` is
`page.extract_text()` (raises on a bad page, otherwise returns an optional
string, `None` standing for Python's falsy results). -/

instance exceptDecEq {ε α : Type} [DecidableEq ε] [DecidableEq α] :
    DecidableEq (Except ε α)
  | .error e, .error e' =>
    if h : e = e' then isTrue (by rw [h]) else isFalse (by intro hh; cases hh; exact h rfl)
  | .error _, .ok _ => isFalse (by intro hh; cases hh)
  | .ok _, .error _ => isFalse (by intro hh; cases hh)
  | .ok a, .ok a' =>
    if h : a = a' then isTrue (by rw [h]) else isFalse (by intro hh; cases hh; exact h rfl)

structure PdfDoc where
  stem : String
  size : Nat
  mtime : ℚ
  cachedText : Option String
  pages : Except Unit (List (Except Unit (Option String)))
deriving DecidableEq

def PdfDoc.name (d : PdfDoc) : String := d.stem ++ ".pdf"

/-! ### Document matcher (KnowledgeBase._match_documents) -/

/-- The set of CJK characters of the query:
`set(_CJK_PATTERN.findall(query))`. -/
def cjkCharsOf (q : String) : List Char := (q.data.filter isCJK).dedup

/-- `len(set(tokenize(name)) & query_tokens)`: the number of distinct tokens
of the display name that also occur in the query. -/
def tokenOverlap (queryTokens : List String) (stem : String) : Nat :=
  ((tokenize stem).dedup.filter (fun t => decide (t ∈ queryTokens))).length

/-- `sum(1 for char in cjk_chars if char in pdf.stem)`. -/
def cjkScore (cjk : List Char) (stem : String) : Nat :=
  (cjk.filter (fun ch => stem.contains ch)).length

/-- The `ranked` list of `_match_documents` before sorting: `(pdf, overlap)`
for the documents with a non-zero token overlap, in listing order. -/
def rankedByTokenOverlap (query : String) (pdfs : List PdfDoc) : List (PdfDoc × Nat) :=
  pdfs.filterMap (fun pdf =>
    let ov := tokenOverlap (tokenize query) pdf.stem
    if ov ≠ 0 then some (pdf, ov) else none)

/-- The `scored` list of the CJK fallback of `_match_documents` before
sorting. -/
def scoredByCjk (query : String) (pdfs : List PdfDoc) : List (PdfDoc × Nat) :=
  pdfs.filterMap (fun pdf =>
    let s := cjkScore (cjkCharsOf query) pdf.stem
    if s ≠ 0 then some (pdf, s) else none)

/-- `KnowledgeBase._match_documents(query)` applied to the listed corpus:
the stably-sorted `ranked` list truncated to `max_docs` if any document has
token overlap with the query; otherwise the stably-sorted CJK-scored list if
the query has CJK characters and some display name contains one; otherwise
`pdfs[: min(max_docs, len(pdfs))]`. -/
def matchDocuments (query : String) (pdfs : List PdfDoc) (maxDocs : Nat) :
    List PdfDoc :=
  if pdfs.isEmpty then []
  else if ¬ (sortByScoreDesc (rankedByTokenOverlap query pdfs)).isEmpty then
    ((sortByScoreDesc (rankedByTokenOverlap query pdfs)).take maxDocs).map Prod.fst
  else if ¬ (cjkCharsOf query).isEmpty then
    if ¬ (sortByScoreDesc (scoredByCjk query pdfs)).isEmpty then
      ((sortByScoreDesc (scoredByCjk query pdfs)).take maxDocs).map Prod.fst
    else pdfs.take (min maxDocs pdfs.length)
  else pdfs.take (min maxDocs pdfs.length)

/-! ### Index signature (KnowledgeBase._index_signature)

`_index_signature` stats every candidate PDF, sorts the `(name, size,
mtime)` records by name (Python's stable sort), and hashes the canonical
JSON of `{files, chunk_size, chunk_overlap, max_pages}` with sha256.  The
hash of the canonical serialization is modelled by the payload itself: the
serialization is injective on payloads and sha256 is assumed collision-free,
so two signatures are equal exactly when the payloads are. -/

structure FileMeta where
  name : String
  size : Nat
  mtime : ℚ
deriving DecidableEq

def fileMeta (d : PdfDoc) : FileMeta := ⟨d.name, d.size, d.mtime⟩

/-- `sorted(files, key=lambda item: item["name"])`. -/
def sortFilesByName (files : List FileMeta) : List FileMeta :=
  files.mergeSort (fun a b => decide (a.name ≤ b.name))

structure SigPayload where
  files : List FileMeta
  chunk_size : Nat
  chunk_overlap : Nat
  max_pages : Nat
deriving DecidableEq

def indexSignature (pdfs : List PdfDoc) (cs co mp : Nat) : SigPayload :=
  ⟨sortFilesByName (pdfs.map fileMeta), cs, co, mp⟩

/-! ### Index cache (KnowledgeBase._save_index / _load_index) -/

/-- Modelled from the spec: `BM25VectorStore.to_state` and
`BM25VectorStore.from_state` are called by `KnowledgeBase._save_index` and
`KnowledgeBase._load_index` but are absent from the repository's source
files.  Per the spec's data model, the cached entry holds the BM25
sufficient statistics — per-document token list, document-frequency table,
average document length — together with the owning `Chunk` list, and
`from_state` reconstructs a store from them (with the constructor defaults
`k1 = 1.5`, `b = 0.75`) without re-running the build. -/
structure BM25IndexState where
  chunks : List Chunk
  docTokens : List (List String)
  docFreq : List (String × Nat)
  avgDocLen : ℚ
deriving DecidableEq

/-- Modelled from the spec: serialize the minimal sufficient statistics. -/
def toState (st : BM25VectorStore) : BM25IndexState :=
  ⟨st.chunks, st.docTokens, st.docFreq, st.avgDocLen⟩

/-- Modelled from the spec: rebuild a store from cached statistics. -/
def fromState (s : BM25IndexState) : BM25VectorStore :=
  ⟨s.chunks, 3/2, 3/4, s.docTokens, s.docFreq, s.avgDocLen⟩

/-- The on-disk `{signature}.pkl` entries; `pickle.dumps`/`pickle.loads` is
modelled as the identity round trip on the serialized state. -/
def saveIndex (cache : List (SigPayload × BM25IndexState)) (sig : SigPayload)
    (st : BM25VectorStore) : List (SigPayload × BM25IndexState) :=
  (sig, toState st) :: cache

def loadIndex (cache : List (SigPayload × BM25IndexState)) (sig : SigPayload) :
    Option BM25VectorStore :=
  match cache.find? (fun p => p.1 == sig) with
  | some p => some (fromState p.2)
  | none => none

/-! ### Text extraction (KnowledgeBase._read_pdf_text) -/

/-- `page.extract_text() or ""`: a raising page propagates, a falsy result
degrades to the empty string. -/
def extractPageText (p : Except Unit (Option String)) : Except Unit String :=
  p.map (fun o => o.getD "")

/-- The `for page in pages: texts.append(page.extract_text() or "")` loop:
the first raising page aborts it. -/
def extractAll : List (Except Unit (Option String)) → Except Unit (List String)
  | [] => Except.ok []
  | p :: rest =>
    match extractPageText p with
    | Except.error e => Except.error e
    | Except.ok t => (extractAll rest).map (fun ts => t :: ts)

/-- `_read_pdf_text`: on a text-cache hit return the cached text verbatim;
otherwise open the reader (which may raise), take the first `max_pages`
pages, extract each page's text (each of which may raise) and join with
newlines.  No exception is caught. -/
def readPdfText (maxPages : Nat) (doc : PdfDoc) : Except Unit String :=
  match doc.cachedText with
  | some t => Except.ok t
  | none =>
    match doc.pages with
    | Except.error e => Except.error e
    | Except.ok pages =>
      (extractAll (pages.take maxPages)).map
        (fun texts => String.intercalate "\n" texts)

/-- The text-gathering loop of `_build_index`: `_read_pdf_text` is called
for every candidate document with no exception handler around it. -/
def buildTexts (maxPages : Nat) : List PdfDoc → Except Unit (List String)
  | [] => Except.ok []
  | d :: rest =>
    match readPdfText maxPages d with
    | Except.error e => Except.error e
    | Except.ok t => (buildTexts maxPages rest).map (fun ts => t :: ts)

/-- What the spec claims a page degrades to: its text when extraction
returns one, the empty string otherwise. -/
def pageTextOrEmpty (p : Except Unit (Option String)) : String :=
  match p with
  | Except.ok o => o.getD ""
  | Except.error _ => ""

/-! ### Knowledge base orchestrator (KnowledgeBase.retrieve)

The mutable fields of the `KnowledgeBase` object (`_chunks`, `_store`,
`_retriever`, `_current_index_key`), the on-disk index cache, and one
`retrieve` call as a state transformer.  The outer `Option` is the chunking
fuel (`none` = the chunking loop was still running), the `Except` is an
uncaught Python exception. -/

structure KBConfig where
  chunkSize : Nat
  chunkOverlap : Nat
  maxPages : Nat
  maxDocs : Nat
deriving DecidableEq

structure KBState where
  chunks : List Chunk
  store : Option BM25VectorStore
  retrv : Option BM25VectorStore
  currentIndexKey : Option SigPayload
deriving DecidableEq

/-- `sorted(self.dataset_dir.glob("*.pdf"))`: the corpus in listing order
(paths of one directory sort by file name). -/
def listPdfs (corpus : List PdfDoc) : List PdfDoc :=
  corpus.mergeSort (fun a b => decide (a.name ≤ b.name))

/-- The chunk-building loop of `_build_index`: read every candidate's text
(exceptions propagate) and extend the chunk list with `_chunk_text`. -/
def buildChunks (cfg : KBConfig) (fuel : Nat) :
    List PdfDoc → Option (Except Unit (List Chunk))
  | [] => some (Except.ok [])
  | d :: rest =>
    match readPdfText cfg.maxPages d with
    | Except.error e => some (Except.error e)
    | Except.ok t =>
      match chunkText cfg.chunkSize cfg.chunkOverlap t.data d.stem fuel with
      | none => none
      | some cs =>
        (buildChunks cfg fuel rest).map (fun r => r.map (fun more => cs ++ more))

/-- The tail of `retrieve` after the index is resolved: `if not
self._retriever: return RetrievalResult(chunks=[])`, otherwise search. -/
def searchStep (ilog : ℚ → ℚ) (query : String) (topK : Int) (st : KBState)
    (cache : List (SigPayload × BM25IndexState)) :
    List Chunk × KBState × List (SigPayload × BM25IndexState) :=
  match st.retrv with
  | none => ([], st, cache)
  | some store => (retrieverRetrieve ilog store query topK, st, cache)

/-- `KnowledgeBase.retrieve(query, top_k)`: match documents, compute the
signature, and on a signature change try the cache and otherwise rebuild and
save; then search.  Returns the retrieved chunks together with the new
orchestrator state and cache contents. -/
def retrieve (cfg : KBConfig) (ilog : ℚ → ℚ) (corpus : List PdfDoc) (st : KBState)
    (cache : List (SigPayload × BM25IndexState)) (query : String) (topK : Int)
    (fuel : Nat) :
    Option (Except Unit (List Chunk × KBState × List (SigPayload × BM25IndexState))) :=
  let pdfs := matchDocuments query (listPdfs corpus) cfg.maxDocs
  let sig := indexSignature pdfs cfg.chunkSize cfg.chunkOverlap cfg.maxPages
  if st.currentIndexKey = some sig then
    some (Except.ok (searchStep ilog query topK st cache))
  else
    match loadIndex cache sig with
    | some store =>
      some (Except.ok (searchStep ilog query topK
        { st with store := some store, retrv := some store, currentIndexKey := some sig }
        cache))
    | none =>
      match buildChunks cfg fuel pdfs with
      | none => none
      | some (Except.error e) => some (Except.error e)
      | some (Except.ok chunks) =>
        some (Except.ok (searchStep ilog query topK
          ⟨chunks, some (mkStore chunks (3/2) (3/4)), some (mkStore chunks (3/2) (3/4)),
            some sig⟩
          (saveIndex cache sig (mkStore chunks (3/2) (3/4)))))

/-! ### Lemmas and claim theorems -/

/-- Once the window start is below the text length it stays below it whenever
`chunk_overlap > 0`: the next start is `min (start + cs) len - co ≤ len - co
< len`, so the loop guard never becomes false. -/
theorem chunkLoop_none_of_pos_overlap (cs co : Nat) (text : List Char) (source : String)
    (hco : 0 < co) :
    ∀ fuel start index, start < text.length →
      chunkLoop cs co text source fuel start index = none := by
  intro fuel
  induction fuel with
  | zero =>
    intro start index h
    simp only [chunkLoop, if_pos h]
  | succ n ih =>
    intro start index h
    have hnext : min (start + cs) text.length - co < text.length := by
      have h1 : min (start + cs) text.length - co ≤ text.length - co :=
        Nat.sub_le_sub_right (min_le_right _ _) co
      exact lt_of_le_of_lt h1 (Nat.sub_lt (lt_of_le_of_lt (Nat.zero_le _) h) hco)
    simp only [chunkLoop, if_pos h]
    by_cases hc :
        (pyStrip ((text.drop start).take (min (start + cs) text.length - start))).isEmpty
    · simp only [hc, if_pos, ih _ _ hnext]
    · simp only [hc, Bool.false_eq_true, if_neg, ih _ _ hnext, Option.map_none', if_false]

/-- C1: FAILS on the code (code bug).  The claim states the chunking loop of
`_chunk_text` terminates for every text and every configuration with
`chunk_size > 0`, `chunk_overlap ≥ 0`.  In fact, for every positive
`chunk_overlap` and every non-empty text the loop never terminates: the next
window start is `min (start + chunk_size) length - chunk_overlap`, which is
always strictly below `length`, so the guard `start < length` never becomes
false (in the final window the start stalls at `length - chunk_overlap`).
Formally: for every fuel bound the fuelled loop is still running. -/
theorem chunk_text_diverges_for_positive_overlap (cs co : Nat) (text : List Char)
    (source : String) (fuel : Nat) (hco : 0 < co) (htext : ¬ text.isEmpty) :
    chunkText cs co text source fuel = none := by
  have hlen : 0 < text.length := by
    cases text with
    | nil => simp at htext
    | cons a t => simp
  simp only [chunkText, htext, if_false, Bool.false_eq_true]
  exact chunkLoop_none_of_pos_overlap cs co text source hco fuel 0 0 hlen

/-- C1 witness: at the constructor defaults `chunk_size = 800`,
`chunk_overlap = 100` the loop diverges already on a one-character text. -/
theorem chunk_text_diverges_witness :
    chunkText 800 100 "a".data "guide" 20 = none :=
  chunk_text_diverges_for_positive_overlap 800 100 "a".data "guide" 20
    (by decide) (by decide)

/-! ### Observational lemmas about the dict model -/

theorem alGet_alInc (d : List (String × Nat)) (k k' : String) :
    alGet (alInc d k') k = alGet d k + (if k = k' then 1 else 0) := by
  induction d with
  | nil =>
    by_cases h : k = k'
    · subst h; simp [alInc, alGet]
    · simp [alInc, alGet, beq_false_of_ne (fun hh => h hh.symm), h]
  | cons p rest ih =>
    obtain ⟨k₀, v₀⟩ := p
    by_cases h0 : k₀ = k'
    · subst h0
      by_cases h1 : k₀ = k
      · subst h1; simp [alInc, alGet]
      · have hk : ¬ k = k₀ := fun hh => h1 hh.symm
        simp [alInc, alGet, beq_false_of_ne h1, hk]
    · by_cases h1 : k₀ = k
      · subst h1
        simp [alInc, alGet, beq_false_of_ne h0, h0]
      · simp [alInc, alGet, beq_false_of_ne h0, beq_false_of_ne h1, ih]

theorem alMem_alInc (d : List (String × Nat)) (k k' : String) :
    alMem (alInc d k') k = (alMem d k || k' == k) := by
  induction d with
  | nil => simp [alInc, alMem]
  | cons p rest ih =>
    obtain ⟨k₀, v₀⟩ := p
    by_cases h0 : k₀ = k'
    · subst h0
      simp only [alInc, beq_self_eq_true, if_true, alMem]
      cases h : (k₀ == k)
      · simp
      · simp [beq_iff_eq.mp h]
    · simp only [alInc, beq_false_of_ne h0, Bool.false_eq_true, if_false, alMem, ih]
      cases h : (k₀ == k) <;> simp

theorem alGet_foldl_alInc (l : List String) (d : List (String × Nat)) (k : String) :
    alGet (l.foldl alInc d) k = alGet d k + l.count k := by
  induction l generalizing d with
  | nil => simp
  | cons a l ih =>
    simp only [List.foldl_cons, ih, alGet_alInc, List.count_cons]
    by_cases h : k = a
    · subst h; simp; ring
    · simp [h, beq_false_of_ne (fun hh => h hh.symm)]

theorem alMem_foldl_alInc (l : List String) (d : List (String × Nat)) (k : String) :
    alMem (l.foldl alInc d) k = (alMem d k || decide (k ∈ l)) := by
  induction l generalizing d with
  | nil => simp
  | cons a l ih =>
    simp only [List.foldl_cons, ih, alMem_alInc, List.mem_cons]
    by_cases h : k = a
    · subst h; simp
    · simp [h, beq_false_of_ne (fun hh : a = k => h hh.symm)]

theorem alGet_termFreq (tokens : List String) (k : String) :
    alGet (termFreq tokens) k = tokens.count k := by
  simp [termFreq, alGet_foldl_alInc, alGet]

theorem alMem_termFreq (tokens : List String) (k : String) :
    alMem (termFreq tokens) k = decide (k ∈ tokens) := by
  simp [termFreq, alMem_foldl_alInc, alMem]

/-! ### What `_build_index` computes -/

theorem foldl_buildStep (chunks : List Chunk) (acc : BuildAcc) :
    (chunks.foldl buildStep acc).docTokens
        = acc.docTokens ++ chunks.map (fun c => tokenize c.content)
      ∧ (chunks.foldl buildStep acc).totalLen
        = acc.totalLen + (chunks.map (fun c => (tokenize c.content).length)).sum
      ∧ ∀ t, alGet (chunks.foldl buildStep acc).docFreq t
        = alGet acc.docFreq t + chunks.countP (fun c => decide (t ∈ tokenize c.content)) := by
  induction chunks generalizing acc with
  | nil => simp
  | cons c chunks ih =>
    obtain ⟨h1, h2, h3⟩ := ih (buildStep acc c)
    refine ⟨?_, ?_, ?_⟩
    · rw [List.foldl_cons, h1]
      simp [buildStep]
    · rw [List.foldl_cons, h2]
      simp only [buildStep, List.map_cons, List.sum_cons]
      ring
    · intro t
      rw [List.foldl_cons, h3 t]
      simp only [buildStep, alGet_foldl_alInc, List.count_dedup, List.countP_cons]
      by_cases h : t ∈ tokenize c.content
      · simp [h]
        ring
      · simp [h]

theorem mkStore_docTokens (chunks : List Chunk) (k1 b : ℚ) :
    (mkStore chunks k1 b).docTokens = chunks.map (fun c => tokenize c.content) := by
  simpa using (foldl_buildStep chunks ⟨[], 0, []⟩).1

theorem mkStore_avgDocLen (chunks : List Chunk) (k1 b : ℚ) :
    (mkStore chunks k1 b).avgDocLen
      = ((chunks.map (fun c => (tokenize c.content).length)).sum : ℚ)
          / (max chunks.length 1 : ℚ) := by
  have h := (foldl_buildStep chunks ⟨[], 0, []⟩).2.1
  simp only [mkStore]
  rw [h]
  norm_num

theorem mkStore_docFreq (chunks : List Chunk) (k1 b : ℚ) (t : String) :
    alGet (mkStore chunks k1 b).docFreq t
      = chunks.countP (fun c => decide (t ∈ tokenize c.content)) := by
  have h := (foldl_buildStep chunks ⟨[], 0, []⟩).2.2 t
  simp only [mkStore]
  rw [h]
  simp [alGet]

/-! ### Stability of the descending sort -/

theorem sublist_pair_or {α : Type} {x y : α} {l : List α}
    (hx : x ∈ l) (hy : y ∈ l) (hxy : x ≠ y) :
    [x, y].Sublist l ∨ [y, x].Sublist l := by
  induction l with
  | nil => cases hx
  | cons a t ih =>
    rcases List.mem_cons.mp hx with rfl | hx'
    · rcases List.mem_cons.mp hy with rfl | hy'
      · exact absurd rfl hxy
      · exact Or.inl ((List.singleton_sublist.mpr hy').cons₂ x)
    · rcases List.mem_cons.mp hy with rfl | hy'
      · exact Or.inr ((List.singleton_sublist.mpr hx').cons₂ y)
      · rcases ih hx' hy' with h | h
        · exact Or.inl (h.cons a)
        · exact Or.inr (h.cons a)

theorem eq_of_pair_sublists {α : Type} {x y : α} {o : List α}
    (hno : o.Nodup) (h1 : [x, y].Sublist o) (h2 : [y, x].Sublist o) : x = y := by
  induction o with
  | nil => cases h1
  | cons a t ih =>
    have hat : a ∉ t := (List.nodup_cons.mp hno).1
    have hnt : t.Nodup := (List.nodup_cons.mp hno).2
    cases h1 with
    | cons _ h1' =>
      cases h2 with
      | cons _ h2' => exact ih hnt h1' h2'
      | cons₂ _ h2' =>
        exact absurd (h1'.subset (by simp)) hat
    | cons₂ _ h1' =>
      cases h2 with
      | cons _ h2' =>
        exact absurd (h2'.subset (by simp)) hat
      | cons₂ _ h2' => rfl

theorem descLe_trans {α β : Type} [LinearOrder β] (a b c : α × β)
    (h1 : decide (b.2 ≤ a.2) = true) (h2 : decide (c.2 ≤ b.2) = true) :
    decide (c.2 ≤ a.2) = true := by
  simp only [decide_eq_true_eq] at *
  exact le_trans h2 h1

theorem descLe_total {α β : Type} [LinearOrder β] (a b : α × β) :
    (decide (b.2 ≤ a.2) || decide (a.2 ≤ b.2)) = true := by
  simpa using le_total b.2 a.2

/-- The sorted `scores` list is in weakly descending score order. -/
theorem sortByScoreDesc_sorted {α β : Type} [LinearOrder β] (l : List (α × β)) :
    (sortByScoreDesc l).Pairwise (fun a b => b.2 ≤ a.2) := by
  have h := List.sorted_mergeSort descLe_trans descLe_total l
  exact h.imp (fun hab => by simpa using hab)

/-- Stability: when the input indices are strictly increasing (as they are
for the `scores` list built by `search`), Python's stable descending sort
puts strictly greater scores first and breaks ties by build order. -/
theorem sortByScoreDesc_stable (l : List (Nat × ℚ))
    (h : l.Pairwise (fun a b => a.1 < b.1)) :
    (sortByScoreDesc l).Pairwise
      (fun a b => b.2 < a.2 ∨ (a.2 = b.2 ∧ a.1 < b.1)) := by
  have hnodup_l : l.Nodup :=
    h.imp (fun hab => by rintro rfl; exact lt_irrefl _ hab)
  have hnodup : (sortByScoreDesc l).Nodup :=
    ((List.mergeSort_perm l _).symm).nodup hnodup_l
  have hsorted := sortByScoreDesc_sorted l
  rw [List.pairwise_iff_forall_sublist]
  intro x y hxy
  have hyx2 : y.2 ≤ x.2 := List.pairwise_iff_forall_sublist.mp hsorted hxy
  rcases lt_or_eq_of_le hyx2 with hlt | heq
  · exact Or.inl hlt
  · refine Or.inr ⟨heq.symm, ?_⟩
    have hxny : x ≠ y := by
      rintro rfl
      have : [x, x].Nodup := hxy.nodup hnodup
      simp at this
    have hx : x ∈ l := List.mem_mergeSort.mp (hxy.subset (by simp))
    have hy : y ∈ l := List.mem_mergeSort.mp (hxy.subset (by simp))
    rcases sublist_pair_or hx hy hxny with h1 | h2
    · exact List.pairwise_iff_forall_sublist.mp h h1
    · have hpw : List.Pairwise (fun a b : Nat × ℚ => decide (b.2 ≤ a.2) = true) [y, x] := by
        simp only [List.pairwise_cons, decide_eq_true_eq]
        refine ⟨?_, by simp, by simp⟩
        rintro a' ha'
        simp only [List.mem_singleton] at ha'
        rw [ha']
        exact heq.ge
      have : [y, x].Sublist (sortByScoreDesc l) :=
        List.sublist_mergeSort descLe_trans descLe_total hpw h2
      exact absurd (eq_of_pair_sublists hnodup hxy this) hxny

/-- The index/score pairs `search` collects before sorting: exactly the
documents with a non-empty token list and strictly positive score. -/
theorem mem_searchScores (ilog : ℚ → ℚ) (st : BM25VectorStore) (q : String)
    (p : Nat × ℚ) :
    p ∈ searchScores ilog st q ↔
      ∃ tokens, st.docTokens.get? p.1 = some tokens ∧ tokens ≠ [] ∧
        p.2 = docScore ilog st (tokenize q) tokens ∧ 0 < p.2 := by
  simp only [searchScores, List.mem_filterMap]
  constructor
  · rintro ⟨⟨i, tokens⟩, hmem, hf⟩
    obtain ⟨hi, htok⟩ := List.mem_enum hmem
    by_cases he : tokens.isEmpty
    · simp [he] at hf
    · simp only [he, Bool.false_eq_true, if_false] at hf
      by_cases hs : 0 < docScore ilog st (tokenize q) tokens
      · simp only [hs, if_pos] at hf
        cases hf
        refine ⟨tokens, ?_, ?_, rfl, hs⟩
        · rw [List.get?_eq_getElem?, List.getElem?_eq_getElem hi, htok]
        · simpa using he
      · simp [hs] at hf
  · rintro ⟨tokens, hget, hne, hscore, hpos⟩
    refine ⟨(p.1, tokens), ?_, ?_⟩
    · rw [List.get?_eq_getElem?] at hget
      obtain ⟨hi, hval⟩ := List.getElem?_eq_some.mp hget
      have hi' : p.1 < st.docTokens.enum.length := by
        simpa [List.enum_length] using hi
      have hv : st.docTokens.enum[p.1] = (p.1, tokens) := by
        rw [List.getElem_enum]
        exact Prod.ext rfl hval
      rw [← hv]
      exact List.getElem_mem _
    · have he : tokens.isEmpty = false := by
        cases tokens with
        | nil => exact absurd rfl hne
        | cons a t => rfl
      simp only [he, Bool.false_eq_true, if_false, ← hscore, hpos, if_pos]

/-- The indices of the `scores` list are strictly increasing (document/build
order). -/
theorem searchScores_pairwise_idx (ilog : ℚ → ℚ) (st : BM25VectorStore) (q : String) :
    (searchScores ilog st q).Pairwise (fun a b => a.1 < b.1) := by
  have henum : st.docTokens.enum.Pairwise (fun a b : Nat × List String => a.1 < b.1) := by
    have h1 : (st.docTokens.enum.map Prod.fst).Pairwise (· < ·) := by
      rw [List.enum_map_fst]
      exact List.pairwise_lt_range _
    exact List.pairwise_map.mp h1
  rw [searchScores, List.pairwise_filterMap]
  refine henum.imp ?_
  intro a b hab p hp p' hp'
  have ha : p.1 = a.1 := by
    by_cases he : a.2.isEmpty
    · simp [he] at hp
    · simp only [he, Bool.false_eq_true, if_false] at hp
      by_cases hs : 0 < docScore ilog st (tokenize q) a.2
      · simp only [hs, if_pos, Option.mem_some_iff] at hp
        rw [← hp]
      · simp [hs] at hp
  have hb : p'.1 = b.1 := by
    by_cases he : b.2.isEmpty
    · simp [he] at hp'
    · simp only [he, Bool.false_eq_true, if_false] at hp'
      by_cases hs : 0 < docScore ilog st (tokenize q) b.2
      · simp only [hs, if_pos, Option.mem_some_iff] at hp'
        rw [← hp']
      · simp [hs] at hp'
  rw [ha, hb]
  exact hab

/-- C5: `search` returns exactly the chunks with a strictly positive
cumulative BM25 score, sorted by score descending with ties in original
build order, truncated to at most `top_k` entries; `top_k = 0` yields the
empty list, and a `top_k` at least the number of positively-scoring chunks
yields exactly those chunks with no padding; the result length is
`min top_k (number of positively-scoring chunks)`. -/
theorem bm25_search_top_k_spec (ilog : ℚ → ℚ) (st : BM25VectorStore) (q : String)
    (k : Nat) :
    search ilog st q 0 = []
    ∧ search ilog st q (k : Int)
        = ((sortByScoreDesc (searchScores ilog st q)).take k).map
            (fun p => (st.chunks.getD p.1 default, p.2))
    ∧ (∀ p : Nat × ℚ, p ∈ searchScores ilog st q ↔
        ∃ tokens, st.docTokens.get? p.1 = some tokens ∧ tokens ≠ [] ∧
          p.2 = docScore ilog st (tokenize q) tokens ∧ 0 < p.2)
    ∧ (sortByScoreDesc (searchScores ilog st q)).Pairwise
        (fun a b => b.2 < a.2 ∨ (a.2 = b.2 ∧ a.1 < b.1))
    ∧ ((searchScores ilog st q).length ≤ k →
        search ilog st q (k : Int)
          = (sortByScoreDesc (searchScores ilog st q)).map
              (fun p => (st.chunks.getD p.1 default, p.2)))
    ∧ (search ilog st q (k : Int)).length = min k (searchScores ilog st q).length := by
  have hlen : (sortByScoreDesc (searchScores ilog st q)).length
      = (searchScores ilog st q).length := by
    simp [sortByScoreDesc, List.length_mergeSort]
  refine ⟨?_, ?_, mem_searchScores ilog st q, ?_, ?_, ?_⟩
  · simp [search, pySliceTo]
  · simp [search, pySliceTo]
  · exact sortByScoreDesc_stable _ (searchScores_pairwise_idx ilog st q)
  · intro hk
    have : (sortByScoreDesc (searchScores ilog st q)).take k
        = sortByScoreDesc (searchScores ilog st q) :=
      List.take_of_length_le (by rw [hlen]; exact hk)
    simp [search, pySliceTo, this]
  · simp [search, pySliceTo, hlen]

/-- C5 witness: evaluating the searched store at a concrete input. -/
theorem bm25_search_top_k_spec_witness :
    search (fun _ => 1) (mkStore [⟨"d-0", "fox", "d", 0⟩] (3/2) (3/4)) "fox" 0 = [] :=
  (bm25_search_top_k_spec (fun _ => 1)
      (mkStore [⟨"d-0", "fox", "d", 0⟩] (3/2) (3/4)) "fox" 1).1

/-- C8: the stored average document length is the arithmetic mean of the
token counts of all chunks' contents (tokenized exactly as queries are,
by `tokenize`), and is 0 for an empty chunk list. -/
theorem bm25_avg_doc_len_is_mean (chunks : List Chunk) (k1 b : ℚ) :
    (chunks = [] → (mkStore chunks k1 b).avgDocLen = 0)
    ∧ (chunks ≠ [] →
        (mkStore chunks k1 b).avgDocLen
          = ((chunks.map (fun c => (tokenize c.content).length)).sum : ℚ)
              / (chunks.length : ℚ)) := by
  constructor
  · rintro rfl
    simp [mkStore_avgDocLen]
  · intro hne
    rw [mkStore_avgDocLen]
    congr 1
    have h1 : 1 ≤ chunks.length := List.length_pos.mpr hne
    exact sup_eq_left.mpr (by exact_mod_cast h1)

/-- C8 witness: a two-chunk corpus with 2 and 1 tokens has average 3/2. -/
theorem bm25_avg_doc_len_witness :
    (mkStore [⟨"d-0", "fox dog", "d", 0⟩, ⟨"d-1", "cat", "d", 1⟩] 1 1).avgDocLen
      = (([⟨"d-0", "fox dog", "d", 0⟩, ⟨"d-1", "cat", "d", 1⟩] :
            List Chunk).map (fun c => (tokenize c.content).length)).sum
          / ((2 : Nat) : ℚ) :=
  (bm25_avg_doc_len_is_mean
      [⟨"d-0", "fox dog", "d", 0⟩, ⟨"d-1", "cat", "d", 1⟩] 1 1).2 (by decide)

/-- C10: `search` never raises for a negative `top_k`: the Python slice
`scores[:top_k]` with `top_k = -m` keeps all positively-scoring chunks
except the `m` lowest-ranked ones (empty when `m` is at least their
count). -/
theorem search_negative_top_k (ilog : ℚ → ℚ) (st : BM25VectorStore) (q : String)
    (m : Nat) (hm : 0 < m) :
    search ilog st q (-(m : Int))
        = ((sortByScoreDesc (searchScores ilog st q)).take
              ((sortByScoreDesc (searchScores ilog st q)).length - m)).map
            (fun p => (st.chunks.getD p.1 default, p.2))
    ∧ search ilog st q (-(m : Int))
        = (search ilog st q ((sortByScoreDesc (searchScores ilog st q)).length : Int)).take
            ((sortByScoreDesc (searchScores ilog st q)).length - m)
    ∧ ((sortByScoreDesc (searchScores ilog st q)).length ≤ m →
        search ilog st q (-(m : Int)) = []) := by
  have hneg : ¬ (0 : Int) ≤ -(m : Int) := by
    simp only [Int.neg_nonneg]
    omega
  have htonat : ((-(-(m : Int))).toNat) = m := by
    simp
  have h1 : search ilog st q (-(m : Int))
      = ((sortByScoreDesc (searchScores ilog st q)).take
            ((sortByScoreDesc (searchScores ilog st q)).length - m)).map
          (fun p => (st.chunks.getD p.1 default, p.2)) := by
    simp [search, pySliceTo, hneg, htonat]
  refine ⟨h1, ?_, ?_⟩
  · rw [h1]
    have h2 : search ilog st q ((sortByScoreDesc (searchScores ilog st q)).length : Int)
        = (sortByScoreDesc (searchScores ilog st q)).map
            (fun p => (st.chunks.getD p.1 default, p.2)) := by
      simp [search, pySliceTo, List.take_of_length_le]
    rw [h2, List.map_take]
  · intro hle
    rw [h1, Nat.sub_eq_zero_of_le hle]
    simp

/-- C10 witness: a concrete negative `top_k`. -/
theorem search_negative_top_k_witness :
    search (fun _ => 1) (mkStore [] (3/2) (3/4)) "fox" (-(1 : Int)) = [] :=
  (search_negative_top_k (fun _ => 1) (mkStore [] (3/2) (3/4)) "fox" 1
      (by decide)).2.2 (by simp [sortByScoreDesc, searchScores, mkStore])

theorem foldl_if_add (m : String → Bool) (g : String → ℚ) :
    ∀ (l : List String) (a : ℚ),
      l.foldl (fun acc t => if m t then acc + g t else acc) a
        = a + ((l.filter m).map g).sum := by
  intro l
  induction l with
  | nil => simp
  | cons t l ih =>
    intro a
    by_cases h : m t
    · simp only [List.foldl_cons, h, if_pos, List.filter_cons_of_pos h, List.map_cons,
        List.sum_cons, ih]
      ring
    · simp only [List.foldl_cons, h, Bool.false_eq_true, if_false,
        List.filter_cons_of_neg (by simpa using h), ih]

theorem docScore_eq_sum (ilog : ℚ → ℚ) (st : BM25VectorStore) (qT tokens : List String) :
    docScore ilog st qT tokens
      = ((qT.filter (fun t => alMem (termFreq tokens) t)).map
          (termContribution ilog st tokens)).sum := by
  have h := foldl_if_add (fun t => alMem (termFreq tokens) t)
    (termContribution ilog st tokens) qT 0
  exact h.trans (zero_add _)

theorem avgOr1_pos (st : BM25VectorStore) (havg : 0 ≤ st.avgDocLen) :
    0 < (if st.avgDocLen = 0 then 1 else st.avgDocLen) := by
  by_cases h : st.avgDocLen = 0
  · simp [h]
  · simp only [h, if_false]
    exact lt_of_le_of_ne havg (fun hh => h hh.symm)

theorem idf_pos (ilog : ℚ → ℚ) (st : BM25VectorStore) (term : String)
    (hlog : ∀ x : ℚ, 1 < x → 0 < ilog x)
    (hdf : alGet st.docFreq term ≤ max st.chunks.length 1) :
    0 < idf ilog st term := by
  apply hlog
  have hq : (alGet st.docFreq term : ℚ) ≤ max (st.chunks.length : ℚ) 1 := by
    have h0 : ((alGet st.docFreq term : ℕ) : ℚ) ≤ ((max st.chunks.length 1 : ℕ) : ℚ) := by
      exact_mod_cast hdf
    simpa [Nat.cast_max] using h0
  have hnum : (0 : ℚ) < max (st.chunks.length : ℚ) 1
      - (alGet st.docFreq term : ℚ) + 1/2 := by linarith
  have hden : (0 : ℚ) < (alGet st.docFreq term : ℚ) + 1/2 := by positivity
  have hdiv := div_pos hnum hden
  linarith

theorem termContribution_pos (ilog : ℚ → ℚ) (st : BM25VectorStore)
    (tokens : List String) (term : String)
    (hlog : ∀ x : ℚ, 1 < x → 0 < ilog x)
    (hk1 : st.k1 = 3/2) (hb : st.b = 3/4) (havg : 0 ≤ st.avgDocLen)
    (hdf : alGet st.docFreq term ≤ max st.chunks.length 1)
    (hmem : term ∈ tokens) :
    0 < termContribution ilog st tokens term := by
  have hidf : 0 < idf ilog st term := idf_pos ilog st term hlog hdf
  have htf : 0 < alGet (termFreq tokens) term := by
    rw [alGet_termFreq]
    exact List.count_pos_iff.mpr hmem
  have htfq : (0 : ℚ) < (alGet (termFreq tokens) term : ℚ) := by exact_mod_cast htf
  have havg1 := avgOr1_pos st havg
  have hfrac : (0 : ℚ) ≤ 3/4 * (tokens.length : ℚ)
      / (if st.avgDocLen = 0 then 1 else st.avgDocLen) :=
    div_nonneg (by positivity) havg1.le
  simp only [termContribution, hk1, hb]
  have hdenom : (0 : ℚ) < (alGet (termFreq tokens) term : ℚ)
      + 3/2 * (1 - 3/4 + 3/4 * (tokens.length : ℚ)
          / (if st.avgDocLen = 0 then 1 else st.avgDocLen)) := by
    nlinarith
  rw [if_neg (ne_of_gt hdenom)]
  have h32 : (0 : ℚ) < 3/2 + 1 := by norm_num
  positivity

theorem mkStore_avgDocLen_nonneg (chunks : List Chunk) (k1 b : ℚ) :
    0 ≤ (mkStore chunks k1 b).avgDocLen := by
  rw [mkStore_avgDocLen]
  positivity

theorem mkStore_docFreq_le (chunks : List Chunk) (k1 b : ℚ) (t : String) :
    alGet (mkStore chunks k1 b).docFreq t ≤ chunks.length := by
  rw [mkStore_docFreq]
  exact List.countP_le_length _

/-- C9: in every built index the document frequency of a term is at most the
chunk count, hence `idf` is strictly positive for every term; consequently a
chunk scores strictly positively against a query exactly when its token list
shares a token with the query, and a query sharing no token with any chunk
returns an empty result for every `top_k`.  `ilog` abstracts `math.log`; the
only property used is positivity on `(1, ∞)`, which the real logarithm has. -/
theorem bm25_positive_score_iff_shared_token (ilog : ℚ → ℚ) (chunks : List Chunk)
    (q : String) (hlog : ∀ x : ℚ, 1 < x → 0 < ilog x) :
    (∀ t, alGet (mkStore chunks (3/2) (3/4)).docFreq t ≤ chunks.length)
    ∧ (∀ t, 0 < idf ilog (mkStore chunks (3/2) (3/4)) t)
    ∧ (∀ tokens, 0 < docScore ilog (mkStore chunks (3/2) (3/4)) (tokenize q) tokens
        ↔ ∃ t ∈ tokenize q, t ∈ tokens)
    ∧ ((∀ tokens ∈ (mkStore chunks (3/2) (3/4)).docTokens, ∀ t ∈ tokenize q, t ∉ tokens) →
        ∀ k : Int, search ilog (mkStore chunks (3/2) (3/4)) q k = []) := by
  set st := mkStore chunks (3/2) (3/4) with hst
  have hchunks : st.chunks = chunks := by rw [hst]; rfl
  have hdfN : ∀ t, alGet st.docFreq t ≤ max st.chunks.length 1 := by
    intro t
    rw [hchunks]
    calc alGet st.docFreq t ≤ chunks.length := mkStore_docFreq_le chunks (3/2) (3/4) t
      _ ≤ max chunks.length 1 := le_max_left _ _
  have hk1 : st.k1 = 3/2 := by rw [hst]; rfl
  have hb : st.b = 3/4 := by rw [hst]; rfl
  have havg : 0 ≤ st.avgDocLen := mkStore_avgDocLen_nonneg chunks (3/2) (3/4)
  have hscore : ∀ tokens, 0 < docScore ilog st (tokenize q) tokens
      ↔ ∃ t ∈ tokenize q, t ∈ tokens := by
    intro tokens
    rw [docScore_eq_sum]
    constructor
    · intro hpos
      by_contra hno
      push_neg at hno
      have hfil : (tokenize q).filter (fun t => alMem (termFreq tokens) t) = [] := by
        apply List.filter_eq_nil_iff.mpr
        intro t ht
        simp only [alMem_termFreq, decide_eq_true_eq]
        simpa using hno t ht
      rw [hfil] at hpos
      simp at hpos
    · rintro ⟨t, hq, htok⟩
      apply List.sum_pos
      · intro x hx
        obtain ⟨u, hu, rfl⟩ := List.mem_map.mp hx
        have humem : u ∈ tokens := by
          have := List.of_mem_filter hu
          simpa [alMem_termFreq] using this
        exact termContribution_pos ilog st tokens u hlog hk1 hb havg (hdfN u) humem
      · intro hnil
        have hmm : termContribution ilog st tokens t
            ∈ ((tokenize q).filter (fun u => alMem (termFreq tokens) u)).map
              (termContribution ilog st tokens) := by
          apply List.mem_map_of_mem
          apply List.mem_filter.mpr
          exact ⟨hq, by simpa [alMem_termFreq] using htok⟩
        rw [hnil] at hmm
        cases hmm
  refine ⟨?_, ?_, hscore, ?_⟩
  · intro t
    rw [hst]
    exact mkStore_docFreq_le chunks (3/2) (3/4) t
  · intro t
    exact idf_pos ilog st t hlog (hdfN t)
  · intro hnone k
    have hempty : searchScores ilog st q = [] := by
      apply List.filterMap_eq_nil_iff.mpr
      intro p hp
      by_cases he : p.2.isEmpty
      · simp [he]
      · simp only [he, Bool.false_eq_true, if_false]
        have hmem : p.2 ∈ st.docTokens := by
          obtain ⟨hi, hval⟩ := List.mem_enum hp
          rw [hval]
          exact List.getElem_mem _
        have : ¬ 0 < docScore ilog st (tokenize q) p.2 := by
          rw [hscore p.2]
          rintro ⟨t, hq, ht⟩
          exact hnone p.2 hmem t hq ht
        simp [this]
    simp [search, hempty, sortByScoreDesc, pySliceTo]

/-- C9 witness: a one-chunk corpus containing the query token scores
strictly positively under a concrete `ilog` that is positive on `(1, ∞)`. -/
theorem bm25_positive_score_witness :
    0 < docScore (fun x => if 1 < x then 1 else 0)
        (mkStore [⟨"d-0", "fox", "d", 0⟩] (3/2) (3/4)) (tokenize "fox") (tokenize "fox") :=
  ((bm25_positive_score_iff_shared_token (fun x => if 1 < x then 1 else 0)
        [⟨"d-0", "fox", "d", 0⟩] "fox"
        (fun x hx => by simp [hx])).2.2.1 (tokenize "fox")).mpr
    ⟨"fox", by decide, by decide⟩

theorem rankedByTokenOverlap_eq_nil_iff (query : String) (pdfs : List PdfDoc) :
    rankedByTokenOverlap query pdfs = []
      ↔ ∀ pdf ∈ pdfs, tokenOverlap (tokenize query) pdf.stem = 0 := by
  rw [rankedByTokenOverlap, List.filterMap_eq_nil_iff]
  constructor
  · intro h pdf hp
    have := h pdf hp
    by_contra hov
    simp [hov] at this
  · intro h pdf hp
    simp [h pdf hp]

theorem scoredByCjk_eq_nil_iff (query : String) (pdfs : List PdfDoc) :
    scoredByCjk query pdfs = []
      ↔ ∀ pdf ∈ pdfs, cjkScore (cjkCharsOf query) pdf.stem = 0 := by
  rw [scoredByCjk, List.filterMap_eq_nil_iff]
  constructor
  · intro h pdf hp
    have := h pdf hp
    by_contra hs
    simp [hs] at this
  · intro h pdf hp
    simp [h pdf hp]

theorem mem_rankedByTokenOverlap (query : String) (pdfs : List PdfDoc)
    (p : PdfDoc × Nat) :
    p ∈ rankedByTokenOverlap query pdfs →
      p.1 ∈ pdfs ∧ p.2 = tokenOverlap (tokenize query) p.1.stem ∧ p.2 ≠ 0 := by
  intro hp
  obtain ⟨pdf, hmem, hf⟩ := List.mem_filterMap.mp hp
  have hf' : (if tokenOverlap (tokenize query) pdf.stem ≠ 0 then
      some (pdf, tokenOverlap (tokenize query) pdf.stem) else none) = some p := hf
  split_ifs at hf' with hov
  cases hf'
  exact ⟨hmem, rfl, hov⟩

theorem sortByScoreDesc_eq_nil_iff {α β : Type} [LinearOrder β] (l : List (α × β)) :
    sortByScoreDesc l = [] ↔ l = [] := by
  constructor
  · intro h
    have := congrArg List.length h
    simp only [sortByScoreDesc, List.length_mergeSort, List.length_nil] at this
    exact List.length_eq_zero.mp this
  · rintro rfl
    simp [sortByScoreDesc]

theorem take_min_length {α : Type} (l : List α) (n : Nat) :
    l.take (min n l.length) = l.take n := by
  rw [List.take_eq_take]
  omega

theorem mem_scoredByCjk (query : String) (pdfs : List PdfDoc) (p : PdfDoc × Nat) :
    p ∈ scoredByCjk query pdfs →
      p.1 ∈ pdfs ∧ p.2 = cjkScore (cjkCharsOf query) p.1.stem ∧ p.2 ≠ 0 := by
  intro hp
  obtain ⟨pdf, hmem, hf⟩ := List.mem_filterMap.mp hp
  have hf' : (if cjkScore (cjkCharsOf query) pdf.stem ≠ 0 then
      some (pdf, cjkScore (cjkCharsOf query) pdf.stem) else none) = some p := hf
  split_ifs at hf' with hs
  cases hf'
  exact ⟨hmem, rfl, hs⟩

/-- C6: for `max_docs > 0`, `_match_documents` returns an empty sequence iff
the corpus is empty; otherwise between 1 and `max_docs` documents, chosen by
the first rule of the strict priority chain that yields at least one result:
(1) documents with token overlap between display name and query, sorted by
overlap descending; (2) else documents whose display name contains a CJK
character of the query, sorted by count descending; (3) else the first
`max_docs` documents in listing order.  The last two conjuncts state that
the sorted rule lists are in descending score order. -/
theorem match_documents_priority (query : String) (pdfs : List PdfDoc) (maxDocs : Nat)
    (hmax : 0 < maxDocs) :
    (matchDocuments query pdfs maxDocs = [] ↔ pdfs = [])
    ∧ (pdfs ≠ [] → 1 ≤ (matchDocuments query pdfs maxDocs).length
        ∧ (matchDocuments query pdfs maxDocs).length ≤ maxDocs)
    ∧ ((∃ pdf ∈ pdfs, tokenOverlap (tokenize query) pdf.stem ≠ 0) →
        matchDocuments query pdfs maxDocs
          = ((sortByScoreDesc (rankedByTokenOverlap query pdfs)).take maxDocs).map
              Prod.fst)
    ∧ ((∀ pdf ∈ pdfs, tokenOverlap (tokenize query) pdf.stem = 0) →
        (∃ pdf ∈ pdfs, cjkScore (cjkCharsOf query) pdf.stem ≠ 0) →
        matchDocuments query pdfs maxDocs
          = ((sortByScoreDesc (scoredByCjk query pdfs)).take maxDocs).map Prod.fst)
    ∧ ((∀ pdf ∈ pdfs, tokenOverlap (tokenize query) pdf.stem = 0) →
        (∀ pdf ∈ pdfs, cjkScore (cjkCharsOf query) pdf.stem = 0) →
        matchDocuments query pdfs maxDocs = pdfs.take maxDocs)
    ∧ (sortByScoreDesc (rankedByTokenOverlap query pdfs)).Pairwise
        (fun a b => b.2 ≤ a.2)
    ∧ (sortByScoreDesc (scoredByCjk query pdfs)).Pairwise (fun a b => b.2 ≤ a.2) := by
  by_cases hpdfs : pdfs = []
  · subst hpdfs
    refine ⟨by simp [matchDocuments], by simp, ?_, ?_, ?_, ?_, ?_⟩
    · rintro ⟨pdf, hp, -⟩
      cases hp
    · rintro - ⟨pdf, hp, -⟩
      cases hp
    · intro _ _
      simp [matchDocuments]
    · simp [rankedByTokenOverlap, sortByScoreDesc]
    · simp [scoredByCjk, sortByScoreDesc]
  · have hpe : pdfs.isEmpty = false := by
      simpa [List.isEmpty_iff] using hpdfs
    have hbounds : 1 ≤ (matchDocuments query pdfs maxDocs).length
        ∧ (matchDocuments query pdfs maxDocs).length ≤ maxDocs := by
      have hplen : 0 < pdfs.length := List.length_pos.mpr hpdfs
      by_cases h1 : (sortByScoreDesc (rankedByTokenOverlap query pdfs)).isEmpty
      · by_cases h2 : (cjkCharsOf query).isEmpty
        · have hres : matchDocuments query pdfs maxDocs
              = pdfs.take (min maxDocs pdfs.length) := by
            simp [matchDocuments, hpe, h1, h2]
          rw [hres]
          simp only [List.length_take]
          omega
        · by_cases h3 : (sortByScoreDesc (scoredByCjk query pdfs)).isEmpty
          · have hres : matchDocuments query pdfs maxDocs
                = pdfs.take (min maxDocs pdfs.length) := by
              simp [matchDocuments, hpe, h1, h2, h3]
            rw [hres]
            simp only [List.length_take]
            omega
          · have hres : matchDocuments query pdfs maxDocs
                = ((sortByScoreDesc (scoredByCjk query pdfs)).take maxDocs).map
                    Prod.fst := by
              simp [matchDocuments, hpe, h1, h2, h3]
            have hne : sortByScoreDesc (scoredByCjk query pdfs) ≠ [] := by
              simpa [List.isEmpty_iff] using h3
            have hpos : 0 < (sortByScoreDesc (scoredByCjk query pdfs)).length :=
              List.length_pos.mpr hne
            rw [hres]
            simp only [List.length_map, List.length_take]
            omega
      · have hres : matchDocuments query pdfs maxDocs
            = ((sortByScoreDesc (rankedByTokenOverlap query pdfs)).take maxDocs).map
                Prod.fst := by
          simp [matchDocuments, hpe, h1]
        have hne : sortByScoreDesc (rankedByTokenOverlap query pdfs) ≠ [] := by
          simpa [List.isEmpty_iff] using h1
        have hpos : 0 < (sortByScoreDesc (rankedByTokenOverlap query pdfs)).length :=
          List.length_pos.mpr hne
        rw [hres]
        simp only [List.length_map, List.length_take]
        omega
    refine ⟨⟨fun h => ?_, fun h => absurd h hpdfs⟩, fun _ => hbounds, ?_, ?_, ?_, ?_, ?_⟩
    · have := hbounds.1
      rw [h] at this
      simp at this
    · intro hex
      have hrne : rankedByTokenOverlap query pdfs ≠ [] := by
        rw [Ne, rankedByTokenOverlap_eq_nil_iff]
        push_neg
        obtain ⟨pdf, hp, hov⟩ := hex
        exact ⟨pdf, hp, hov⟩
      have h1 : ¬ (sortByScoreDesc (rankedByTokenOverlap query pdfs)).isEmpty = true := by
        simpa [List.isEmpty_iff, sortByScoreDesc_eq_nil_iff] using hrne
      simp [matchDocuments, hpe, h1]
    · intro hall hex
      have hreq : rankedByTokenOverlap query pdfs = [] :=
        (rankedByTokenOverlap_eq_nil_iff query pdfs).mpr hall
      have h1 : (sortByScoreDesc (rankedByTokenOverlap query pdfs)).isEmpty = true := by
        simp [hreq, sortByScoreDesc_eq_nil_iff, List.isEmpty_iff]
      obtain ⟨pdf, hp, hs⟩ := hex
      have hcjkne : ¬ (cjkCharsOf query).isEmpty = true := by
        rw [List.isEmpty_iff]
        intro hc
        simp [cjkScore, hc] at hs
      have hsne : scoredByCjk query pdfs ≠ [] := by
        rw [Ne, scoredByCjk_eq_nil_iff]
        push_neg
        exact ⟨pdf, hp, hs⟩
      have h3 : ¬ (sortByScoreDesc (scoredByCjk query pdfs)).isEmpty = true := by
        simpa [List.isEmpty_iff, sortByScoreDesc_eq_nil_iff] using hsne
      simp [matchDocuments, hpe, h1, hcjkne, h3]
    · intro hall1 hall2
      have hreq : rankedByTokenOverlap query pdfs = [] :=
        (rankedByTokenOverlap_eq_nil_iff query pdfs).mpr hall1
      have h1 : (sortByScoreDesc (rankedByTokenOverlap query pdfs)).isEmpty = true := by
        simp [hreq, sortByScoreDesc_eq_nil_iff, List.isEmpty_iff]
      have hseq : scoredByCjk query pdfs = [] :=
        (scoredByCjk_eq_nil_iff query pdfs).mpr hall2
      have h3 : (sortByScoreDesc (scoredByCjk query pdfs)).isEmpty = true := by
        simp [hseq, sortByScoreDesc_eq_nil_iff, List.isEmpty_iff]
      by_cases hcjk : (cjkCharsOf query).isEmpty
      · simp [matchDocuments, hpe, h1, hcjk, take_min_length]
      · simp [matchDocuments, hpe, h1, hcjk, h3, take_min_length]
    · exact sortByScoreDesc_sorted (rankedByTokenOverlap query pdfs)
    · exact sortByScoreDesc_sorted (scoredByCjk query pdfs)

/-- C6 witness: a corpus with no token or CJK overlap with the query falls
back to the first `max_docs` documents of the listing. -/
theorem match_documents_priority_witness :
    matchDocuments "hello" [⟨"西安", 9, 1, none, Except.ok []⟩] 5
      = ([⟨"西安", 9, 1, none, Except.ok []⟩] : List PdfDoc).take 5 :=
  (match_documents_priority "hello" [⟨"西安", 9, 1, none, Except.ok []⟩] 5
      (by decide)).2.2.2.2.1 (by decide) (by decide)

theorem nameLe_trans (a b c : FileMeta) (h1 : decide (a.name ≤ b.name) = true)
    (h2 : decide (b.name ≤ c.name) = true) : decide (a.name ≤ c.name) = true := by
  simp only [decide_eq_true_eq] at *
  exact le_trans h1 h2

theorem nameLe_total (a b : FileMeta) :
    (decide (a.name ≤ b.name) || decide (b.name ≤ a.name)) = true := by
  simpa using le_total a.name b.name

theorem sortFilesByName_perm (files : List FileMeta) :
    (sortFilesByName files).Perm files :=
  List.mergeSort_perm files _

/-- With pairwise-distinct names (true of any directory listing) the sorted
file list depends only on the multiset of records, so the signature is
invariant under permutation of the input list. -/
theorem sortFilesByName_eq_of_perm (l l' : List FileMeta) (hperm : l.Perm l')
    (hnodup : (l.map FileMeta.name).Nodup) :
    sortFilesByName l = sortFilesByName l' := by
  have hnodup' : (l'.map FileMeta.name).Nodup := (hperm.map FileMeta.name).nodup hnodup
  have hstrict : ∀ (m : List FileMeta), (m.map FileMeta.name).Nodup →
      (sortFilesByName m).Pairwise (fun a b => a.name < b.name) := by
    intro m hm
    have hle : (sortFilesByName m).Pairwise (fun a b => a.name ≤ b.name) :=
      (List.sorted_mergeSort nameLe_trans nameLe_total m).imp
        (fun hab => by simpa using hab)
    have hmapnd : ((sortFilesByName m).map FileMeta.name).Nodup :=
      ((sortFilesByName_perm m).map FileMeta.name).symm.nodup hm
    have hne : (sortFilesByName m).Pairwise (fun a b => a.name ≠ b.name) :=
      List.pairwise_map.mp hmapnd
    exact (hle.and hne).imp (fun hab => lt_of_le_of_ne hab.1 hab.2)
  haveI : IsAntisymm FileMeta (fun a b => a.name < b.name) :=
    ⟨fun a b h1 h2 => (lt_asymm h1 h2).elim⟩
  exact List.eq_of_perm_of_sorted
    (((sortFilesByName_perm l).trans hperm).trans (sortFilesByName_perm l').symm)
    (hstrict l hnodup) (hstrict l' hnodup')

/-- C7: the signature is a deterministic function of the files' `(name,
size, mtime)` records and the build parameters; it is invariant under
permutation of the document list (whose names are pairwise distinct, as in
any directory listing); replacing one file's record by one with the same
name but different size or mtime changes it; changing `chunk_size` changes
it. -/
theorem index_signature_spec :
    (∀ (pdfs : List PdfDoc) (cs co mp : Nat),
        indexSignature pdfs cs co mp = indexSignature pdfs cs co mp)
    ∧ (∀ (pdfs pdfs' : List PdfDoc) (cs co mp : Nat), pdfs.Perm pdfs' →
        (pdfs.map PdfDoc.name).Nodup →
        indexSignature pdfs cs co mp = indexSignature pdfs' cs co mp)
    ∧ (∀ (pdfs : List PdfDoc) (i : Nat) (f' : PdfDoc) (cs co mp : Nat)
        (hi : i < pdfs.length), (pdfs.map PdfDoc.name).Nodup →
        f'.name = (pdfs.get ⟨i, hi⟩).name →
        (f'.size ≠ (pdfs.get ⟨i, hi⟩).size ∨ f'.mtime ≠ (pdfs.get ⟨i, hi⟩).mtime) →
        indexSignature (pdfs.set i f') cs co mp ≠ indexSignature pdfs cs co mp)
    ∧ (∀ (pdfs : List PdfDoc) (cs cs' co mp : Nat), cs ≠ cs' →
        indexSignature pdfs cs co mp ≠ indexSignature pdfs cs' co mp) := by
  refine ⟨fun _ _ _ _ => rfl, ?_, ?_, ?_⟩
  · intro pdfs pdfs' cs co mp hperm hnodup
    have hmeta : (pdfs.map fileMeta).map FileMeta.name = pdfs.map PdfDoc.name := by
      simp [fileMeta, Function.comp, PdfDoc.name]
    have hnd : ((pdfs.map fileMeta).map FileMeta.name).Nodup := by
      rw [hmeta]; exact hnodup
    simp only [indexSignature, SigPayload.mk.injEq, and_true]
    exact sortFilesByName_eq_of_perm _ _ (hperm.map fileMeta) hnd
  · intro pdfs i f' cs co mp hi hnodup hname hdiff heq
    simp only [indexSignature, SigPayload.mk.injEq, and_true] at heq
    have hperm : ((pdfs.set i f').map fileMeta).Perm (pdfs.map fileMeta) :=
      ((sortFilesByName_perm _).symm.trans (heq ▸ sortFilesByName_perm _))
    set fm : FileMeta := fileMeta (pdfs.get ⟨i, hi⟩) with hfm
    have hfm_mem : fm ∈ pdfs.map fileMeta :=
      List.mem_map_of_mem fileMeta (List.get_mem pdfs i hi)
    have hfm_mem' : fm ∈ (pdfs.set i f').map fileMeta :=
      hperm.symm.subset hfm_mem
    obtain ⟨d, hd, hdfm⟩ := List.mem_map.mp hfm_mem'
    obtain ⟨j, hj, hdj⟩ := List.mem_iff_getElem.mp hd
    by_cases hij : i = j
    · subst hij
      rw [List.getElem_set_self hj] at hdj
      subst hdj
      rcases hdiff with h | h
      · exact h (congrArg FileMeta.size hdfm)
      · exact h (congrArg FileMeta.mtime hdfm)
    · rw [List.getElem_set_ne hij hj] at hdj
      subst hdj
      have hj' : j < pdfs.length := by
        have := hj
        rw [List.length_set] at this
        exact this
      have hnames : pdfs[j].name = pdfs[i].name := by
        have h1 : fileMeta pdfs[j] = fm := hdfm
        rw [hfm] at h1
        have := congrArg FileMeta.name h1
        simpa [fileMeta] using this
      have hinj := List.nodup_iff_injective_get.mp hnodup
      have hgetj : (pdfs.map PdfDoc.name).get ⟨j, by simpa using hj'⟩
          = (pdfs.map PdfDoc.name).get ⟨i, by simpa using hi⟩ := by
        simp only [List.get_eq_getElem, List.getElem_map]
        exact hnames
      have := hinj hgetj
      have hji : j = i := by
        simpa using congrArg Fin.val this
      exact hij hji.symm
  · intro pdfs cs cs' co mp hcs heq
    exact hcs (congrArg SigPayload.chunk_size heq)

/-- C7 witness: changing `chunk_size` alone changes the signature. -/
theorem index_signature_witness :
    indexSignature [] 800 100 30 ≠ indexSignature [] 801 100 30 :=
  index_signature_spec.2.2.2 [] 800 801 100 30 (by decide)

/-- C2: saving a built index under a signature and loading that signature
back yields a store with identical `search` behaviour — same chunks, same
order, same scores — for every query and `top_k` (spec-modelled
`to_state`/`from_state`, see their doc comments). -/
theorem index_cache_round_trip (cache : List (SigPayload × BM25IndexState))
    (sig : SigPayload) (st : BM25VectorStore)
    (hk1 : st.k1 = 3/2) (hb : st.b = 3/4) :
    loadIndex (saveIndex cache sig st) sig = some (fromState (toState st))
    ∧ fromState (toState st) = st
    ∧ ∀ (ilog : ℚ → ℚ) (q : String) (k : Int),
        search ilog (fromState (toState st)) q k = search ilog st q k := by
  have hid : fromState (toState st) = st := by
    obtain ⟨chunks, k1, b, docTokens, docFreq, avg⟩ := st
    simp only at hk1 hb
    simp [fromState, toState, hk1, hb]
  refine ⟨?_, hid, fun ilog q k => by rw [hid]⟩
  simp [loadIndex, saveIndex, List.find?]

/-- C2 witness: a concrete store built with the constructor defaults. -/
theorem index_cache_round_trip_witness :
    loadIndex
        (saveIndex [] (indexSignature [] 800 100 30)
          (mkStore [⟨"d-0", "fox", "d", 0⟩] (3/2) (3/4)))
        (indexSignature [] 800 100 30)
      = some (fromState (toState (mkStore [⟨"d-0", "fox", "d", 0⟩] (3/2) (3/4)))) :=
  (index_cache_round_trip [] (indexSignature [] 800 100 30)
      (mkStore [⟨"d-0", "fox", "d", 0⟩] (3/2) (3/4)) rfl rfl).1

theorem extractAll_ok (l : List (Except Unit (Option String)))
    (h : ∀ p ∈ l, p.isOk) :
    extractAll l = Except.ok (l.map pageTextOrEmpty) := by
  induction l with
  | nil => rfl
  | cons p rest ih =>
    have hrest := ih (fun p hp => h p (List.mem_cons_of_mem _ hp))
    cases p with
    | error e => simpa [Except.isOk, Except.toBool] using h _ (List.mem_cons_self _ _)
    | ok o => simp [extractAll, extractPageText, Except.map, hrest, pageTextOrEmpty]

theorem extractAll_error (l : List (Except Unit (Option String)))
    (h : Except.error () ∈ l) :
    extractAll l = Except.error () := by
  induction l with
  | nil => cases h
  | cons p rest ih =>
    rcases List.mem_cons.mp h with rfl | hmem
    · simp [extractAll, extractPageText, Except.map]
    · cases p with
      | error e => cases e; simp [extractAll, extractPageText, Except.map]
      | ok o => simp [extractAll, extractPageText, Except.map, ih hmem]

theorem search_mkStore_nil (ilog : ℚ → ℚ) (q : String) (k : Int) :
    search ilog (mkStore [] (3/2) (3/4)) q k = [] := by
  have h : searchScores ilog (mkStore [] (3/2) (3/4)) q = [] := by
    simp [searchScores, mkStore]
  simp only [search, h, sortByScoreDesc, List.mergeSort_nil, pySliceTo]
  split_ifs <;> simp

/-- C3 (amended): a page whose extraction *returns* no text degrades to the
empty string and processing continues; but a page whose extraction *raises*,
or an unreadable document, is not caught anywhere on the retrieval path —
the exception propagates out of `_read_pdf_text` and `_build_index`. -/
theorem extraction_failure_handling (maxPages : Nat) (doc : PdfDoc)
    (pages : List (Except Unit (Option String))) (docs : List PdfDoc) :
    (doc.cachedText = none → doc.pages = Except.ok pages →
        (∀ p ∈ pages.take maxPages, p.isOk) →
        readPdfText maxPages doc
          = Except.ok (String.intercalate "\n"
              ((pages.take maxPages).map pageTextOrEmpty)))
    ∧ (doc.cachedText = none → doc.pages = Except.error () →
        readPdfText maxPages doc = Except.error ())
    ∧ (doc.cachedText = none → doc.pages = Except.ok pages →
        Except.error () ∈ pages.take maxPages →
        readPdfText maxPages doc = Except.error ())
    ∧ (doc ∈ docs → readPdfText maxPages doc = Except.error () →
        buildTexts maxPages docs = Except.error ()) := by
  refine ⟨?_, ?_, ?_, ?_⟩
  · intro hc hp hok
    simp [readPdfText, hc, hp, extractAll_ok _ hok, Except.map]
  · intro hc hp
    simp [readPdfText, hc, hp]
  · intro hc hp herr
    simp [readPdfText, hc, hp, extractAll_error _ herr, Except.map]
  · intro hmem herr
    induction docs with
    | nil => cases hmem
    | cons d rest ih =>
      rcases List.mem_cons.mp hmem with rfl | hmem'
      · simp [buildTexts, herr]
      · cases hread : readPdfText maxPages d with
        | error e => cases e; simp [buildTexts, hread]
        | ok t => simp [buildTexts, hread, ih hmem', Except.map]

/-- C3 witness: two non-raising pages, one returning `None`, degrade to the
empty string and the document's text is assembled from the rest. -/
theorem extraction_failure_handling_witness :
    readPdfText 30
        ⟨"guide", 1, 1, none, Except.ok [Except.ok none, Except.ok (some "hello")]⟩
      = Except.ok (String.intercalate "\n"
          ((([Except.ok none, Except.ok (some "hello")] :
              List (Except Unit (Option String))).take 30).map pageTextOrEmpty)) :=
  (extraction_failure_handling 30
      ⟨"guide", 1, 1, none, Except.ok [Except.ok none, Except.ok (some "hello")]⟩
      [Except.ok none, Except.ok (some "hello")] []).1 rfl rfl (by decide)

/-- C3 counterexample: a corpus whose single document has one raising page
aborts the whole retrieval with the exception — `retrieve` does not degrade
it to empty text, contradicting the claim that extraction failures never
propagate to the caller. -/
theorem retrieve_aborts_on_page_extraction_error :
    retrieve ⟨800, 100, 30, 5⟩ (fun _ => 1)
        [⟨"guide", 1, 1, none, Except.ok [Except.error ()]⟩]
        ⟨[], none, none, none⟩ [] "guide" 4 0
      = some (Except.error ()) := by
  have hlist : listPdfs [⟨"guide", 1, 1, none, Except.ok [Except.error ()]⟩]
      = [⟨"guide", 1, 1, none, Except.ok [Except.error ()]⟩] := by
    simp [listPdfs]
  have hr : rankedByTokenOverlap "guide"
      [⟨"guide", 1, 1, none, Except.ok [Except.error ()]⟩]
      = [(⟨"guide", 1, 1, none, Except.ok [Except.error ()]⟩, 1)] := by decide
  have hmatch : matchDocuments "guide"
      [⟨"guide", 1, 1, none, Except.ok [Except.error ()]⟩] 5
      = [⟨"guide", 1, 1, none, Except.ok [Except.error ()]⟩] := by
    rw [matchDocuments]
    simp [hr, sortByScoreDesc]
  simp only [retrieve, hlist, hmatch]
  rw [if_neg (by simp)]
  have hload : loadIndex []
      (indexSignature [⟨"guide", 1, 1, none, Except.ok [Except.error ()]⟩]
        800 100 30) = none := rfl
  rw [hload]
  have hread : readPdfText 30 ⟨"guide", 1, 1, none, Except.ok [Except.error ()]⟩
      = Except.error () := by
    simp [readPdfText, extractAll, extractPageText, Except.map]
  simp [buildChunks, hread]

/-- C4 (amended): with an empty candidate set (empty corpus) `retrieve` does
return an empty chunk list, but it does not skip the build: it computes the
empty-list signature, misses the cache, builds an empty index (overwriting
the store and retriever), saves it to the index cache, and then searches the
empty index. -/
theorem retrieve_empty_corpus_runs_build (cfg : KBConfig) (ilog : ℚ → ℚ)
    (st : KBState) (cache : List (SigPayload × BM25IndexState)) (query : String)
    (topK : Int) (fuel : Nat)
    (hkey : st.currentIndexKey
      ≠ some (indexSignature [] cfg.chunkSize cfg.chunkOverlap cfg.maxPages))
    (hmiss : loadIndex cache
      (indexSignature [] cfg.chunkSize cfg.chunkOverlap cfg.maxPages) = none) :
    retrieve cfg ilog [] st cache query topK fuel
      = some (Except.ok
          ([],
           ⟨[], some (mkStore [] (3/2) (3/4)), some (mkStore [] (3/2) (3/4)),
             some (indexSignature [] cfg.chunkSize cfg.chunkOverlap cfg.maxPages)⟩,
           saveIndex cache (indexSignature [] cfg.chunkSize cfg.chunkOverlap cfg.maxPages)
             (mkStore [] (3/2) (3/4)))) := by
  have hlist : listPdfs [] = [] := by simp [listPdfs]
  have hmatch : matchDocuments query [] cfg.maxDocs = [] := by
    simp [matchDocuments]
  simp only [retrieve, hlist, hmatch]
  rw [if_neg hkey, hmiss]
  simp [buildChunks, searchStep, retrieverRetrieve, search_mkStore_nil]

/-- C4 witness for the amended claim, at a concrete configuration. -/
theorem retrieve_empty_corpus_runs_build_witness :
    retrieve ⟨400, 50, 10, 3⟩ (fun _ => 0) [] ⟨[], none, none, none⟩ [] "trip" 2 7
      = some (Except.ok
          ([],
           ⟨[], some (mkStore [] (3/2) (3/4)), some (mkStore [] (3/2) (3/4)),
             some (indexSignature [] 400 50 10)⟩,
           saveIndex [] (indexSignature [] 400 50 10) (mkStore [] (3/2) (3/4)))) :=
  retrieve_empty_corpus_runs_build ⟨400, 50, 10, 3⟩ (fun _ => 0)
    ⟨[], none, none, none⟩ [] "trip" 2 7 (by simp) rfl

/-- C4 counterexample: on an empty corpus with a fresh orchestrator the
claim's frame condition is violated — the store and retriever are populated
with a freshly built empty index and an index-cache entry is written, even
though the returned chunk list is empty. -/
theorem retrieve_empty_corpus_counterexample :
    retrieve ⟨800, 100, 30, 5⟩ (fun _ => 1) [] ⟨[], none, none, none⟩ [] "hi" 4 0
      = some (Except.ok
          ([],
           ⟨[], some (mkStore [] (3/2) (3/4)), some (mkStore [] (3/2) (3/4)),
             some (indexSignature [] 800 100 30)⟩,
           [(indexSignature [] 800 100 30, toState (mkStore [] (3/2) (3/4)))]))
    ∧ ([(indexSignature [] 800 100 30, toState (mkStore [] (3/2) (3/4)))] :
        List (SigPayload × BM25IndexState)) ≠ []
    ∧ (some (mkStore [] (3/2) (3/4)) : Option BM25VectorStore) ≠ none := by
  refine ⟨?_, by simp, by simp⟩
  have hlist : listPdfs ([] : List PdfDoc) = [] := by simp [listPdfs]
  have hmatch : matchDocuments "hi" [] 5 = [] := by simp [matchDocuments]
  simp only [retrieve, hlist, hmatch]
  rw [if_neg (by simp)]
  have hload : loadIndex [] (indexSignature [] 800 100 30) = none := rfl
  rw [hload]
  simp [buildChunks, searchStep, retrieverRetrieve, search_mkStore_nil, saveIndex]

end RAG

